import Mathlib

/- Verification development for the key-phrase extraction engine in
   src/.llm-orc/scripts/extraction/textrank-extract.py.

   Embedding conventions:
   - Python floats are modeled as exact rationals (ℚ).
   - Python dicts keyed by strings are modeled as association lists in key
     insertion order; `dict.get(k, d)` is `lookupD`.
   - Python sets are modeled as duplicate-free lists in first-insertion order
     (set iteration order in CPython is unspecified; every use in the source is
     order-insensitive, see the comments at each use site).
   - `collections.Counter(xs)` is modeled by `dedupFirst xs` for its keys and
     `xs.count k` for the multiplicities.
   - `collections.defaultdict(float)` is modeled as a total function with
     default 0, so iteration over its items becomes summation over the whole
     index set (absent entries contribute 0 to every sum).
   - Python `re` scans are embedded as explicit character scanners. Scanners
     that can jump forward over a match carry a fuel argument bounding the
     number of scanning steps; every call site passes fuel larger than the
     input length, which is always sufficient since each step consumes at
     least one character.
   - Fallible Python code (statements that can raise ZeroDivisionError or
     IndexError) is embedded in `Except String`.
   - Only ASCII text behavior is modeled (the regexes in the source only match
     ASCII word shapes; `str.lower`, `str.strip`, `str.split` agree with the
     embedding on ASCII input). -/

attribute [local semireducible] Rat.add Rat.mul Rat.sub Rat.inv

deriving instance DecidableEq for Except

/-! ### Character helpers (ASCII) -/

def isLowerAZ (c : Char) : Bool := 'a' ≤ c && c ≤ 'z'

def isUpperAZ (c : Char) : Bool := 'A' ≤ c && c ≤ 'Z'

/-- Python regex word character `\w` (ASCII): letters, digits, underscore. -/
def isWordChar (c : Char) : Bool := c.isAlpha || c.isDigit || c = '_'

/-- Python regex whitespace `\s` (ASCII): space, tab, newline, CR, VT, FF. -/
def isSpaceChar (c : Char) : Bool :=
  c = ' ' || c = '\t' || c = '\n' || c = '\r' || c = '\x0b' || c = '\x0c'

/-- Python `str.lower()` on ASCII text. -/
def strLower (s : String) : String := String.mk (s.toList.map Char.toLower)

/-- Python `str.strip()` (ASCII whitespace). -/
def stripStr (s : String) : String :=
  String.mk (((s.toList.dropWhile isSpaceChar).reverse.dropWhile isSpaceChar).reverse)

/-- The apostrophe character, used in contraction stopwords. -/
def apos : String := String.mk [Char.ofNat 39]

/-- Helper building a contraction word such as aren+'+t. -/
def qw (a b : String) : String := a ++ apos ++ b

/-! ### The two static word sets (STOPWORDS / GENERIC_TERMS from the source,
    transcribed in order; the Python frozenset only ever answers membership
    queries, for which a list with duplicates is equivalent). -/

def STOPWORDS : List String :=
  ["a", "about", "above", "after", "again", "against", "all", "am", "an", "and",
   "any", "are", qw "aren" "t", "as", "at", "be",
   "because", "been", "before", "being", "below", "between", "both", "but",
   "by", qw "can" "t", "cannot", "could",
   qw "couldn" "t", "did", qw "didn" "t", "do", "does", qw "doesn" "t",
   "doing", qw "don" "t", "down", "during", "each", "few", "for",
   "from", "further", "get", "got", "had", qw "hadn" "t", "has",
   qw "hasn" "t", "have", qw "haven" "t", "having", "he", qw "he" "d",
   qw "he" "ll", qw "he" "s", "her", "here", qw "here" "s", "hers",
   "herself", "him", "himself", "his", "how", qw "how" "s", "i", qw "i" "d",
   qw "i" "ll", qw "i" "m", qw "i" "ve", "if", "in", "into", "is",
   qw "isn" "t", "it", qw "it" "s", "its", "itself", qw "let" "s", "me",
   "more", "most",
   qw "mustn" "t", "my", "myself", "no", "nor", "not", "of", "off", "on",
   "once", "only", "or", "other", "ought", "our", "ours",
   "ourselves", "out", "over", "own", "same", qw "shan" "t", "she",
   qw "she" "d", qw "she" "ll", qw "she" "s", "should",
   qw "shouldn" "t", "so", "some", "such", "than", "that", qw "that" "s",
   "the", "their", "theirs", "them", "themselves",
   "then", "there", qw "there" "s", "these", "they", qw "they" "d",
   qw "they" "ll", qw "they" "re", qw "they" "ve", "this", "those",
   "through", "to", "too", "under", "until", "up", "very", "was",
   qw "wasn" "t", "we", qw "we" "d", qw "we" "ll", qw "we" "re",
   qw "we" "ve",
   "were", qw "weren" "t", "what", qw "what" "s", "when", qw "when" "s",
   "where", qw "where" "s", "which", "while", "who", qw "who" "s",
   "whom", "why", qw "why" "s", "will", "with", qw "won" "t", "would",
   qw "wouldn" "t", "you", qw "you" "d", qw "you" "ll", qw "you" "re",
   qw "you" "ve", "your", "yours", "yourself", "yourselves", "also", "just",
   "like", "even", "still", "well", "much",
   "however", "although", "though", "since", "within", "without", "between",
   "another", "those", "being",
   "been", "would", "could", "should", "might", "must", "shall", "may",
   "will", "can", "need", "using", "used", "use",
   "one", "two", "three", "make", "made", "way", "many", "how", "new",
   "first", "also", "back", "only", "see", "now",
   "well", "even", "get", "made", "going", "using", "used", "just", "like",
   "still", "take", "every", "much", "also"]

def GENERIC_TERMS : List String :=
  ["data", "information", "system", "process", "approach", "method", "result",
   "example", "case",
   "point", "question", "answer", "problem", "solution", "issue", "work",
   "thing", "part", "type", "form",
   "kind", "sort", "area", "field", "level", "state", "point", "set",
   "number", "order", "way", "time"]

/-! ### tokenize: `re.findall(r'\b[a-z][a-z\-]+[a-z]\b', text.lower())`

    A match is a maximal-start, regex-greedy run: at a position where the
    previous character is not a word character and the current character is a
    lowercase letter, take the maximal run of characters in `[a-z-]`; the
    match is the longest prefix of that run of length at least 3 that ends in
    a letter and is followed (in the whole text) by a non-word character or
    the end of text.  `finditer` resumes after the match (non-overlapping). -/

def isTokChar (c : Char) : Bool := isLowerAZ c || c = '-'

/-- Longest end position of a `\b[a-z][a-z\-]+[a-z]\b` match inside the run
    `R` of token characters, given whether the character following the run is
    a word character. -/
def tokEnd (R : List Char) (nextWord : Bool) : Option ℕ :=
  ((List.range (R.length + 1)).filter (fun e =>
    decide (3 ≤ e) &&
    (match R[e-1]? with | some c => isLowerAZ c | none => false) &&
    (match R[e]? with | some c => !isWordChar c | none => !nextWord))).max?

def tokenizeGo : ℕ → Bool → List Char → List String
  | 0, _, _ => []
  | _ + 1, _, [] => []
  | fuel + 1, prevW, c :: cs =>
    if isLowerAZ c && !prevW then
      let R := (c :: cs).takeWhile isTokChar
      let rest := (c :: cs).dropWhile isTokChar
      let nextW := match rest with | [] => false | d :: _ => isWordChar d
      match tokEnd R nextW with
      | some e => String.mk (R.take e) :: tokenizeGo fuel true (R.drop e ++ rest)
      | none => tokenizeGo fuel (isWordChar c) cs
    else
      tokenizeGo fuel (isWordChar c) cs

/-- `tokenize(text)` from the source: lowercase word tokens. -/
def tokenize (text : String) : List String :=
  let cs := text.toList.map Char.toLower
  tokenizeGo (cs.length + 1) false cs

/-! ### Paragraph segmentation: `re.split(r'\n\s*\n', text)`

    A paragraph break is a newline followed by a (possibly empty) whitespace
    run containing at least one further newline; greedy `\s*` with the final
    `\n` backtracking makes the break end at the last newline of that run. -/

/-- Index of the last newline in a character list, if any. -/
def lastNlIdx : List Char → Option ℕ
  | [] => none
  | c :: cs =>
    match lastNlIdx cs with
    | some k => some (k + 1)
    | none => if c = '\n' then some 0 else none

def paraGo : ℕ → List Char → List Char → List String
  | 0, acc, _ => [String.mk acc.reverse]
  | _ + 1, acc, [] => [String.mk acc.reverse]
  | fuel + 1, acc, c :: cs =>
    if c = '\n' then
      let S := cs.takeWhile isSpaceChar
      let rest := cs.dropWhile isSpaceChar
      match lastNlIdx S with
      | some k => String.mk acc.reverse :: paraGo fuel [] (S.drop (k + 1) ++ rest)
      | none => paraGo fuel (c :: acc) cs
    else paraGo fuel (c :: acc) cs

def splitParas (text : String) : List String :=
  paraGo (text.toList.length + 1) [] text.toList

/-- `tokenize_by_paragraph(text)` from the source. -/
def tokenize_by_paragraph (text : String) : List (List String) :=
  ((splitParas text).filter (fun p => !(stripStr p == ""))).map tokenize

/-! ### Small dictionary / list helpers -/

/-- Python `dict.get(k, d)` over an association list. -/
def lookupD : List (String × ℚ) → String → ℚ → ℚ
  | [], _, d => d
  | (k, v) :: rest, t, d => if t = k then v else lookupD rest t d

/-- Add a string to a set-as-list if not already present (Python `set.add`). -/
def insertIfAbsent (l : List String) (x : String) : List String :=
  if x ∈ l then l else l ++ [x]

/-- Distinct elements in first-occurrence order (keys of `Counter`, or a set
    built by repeated insertion). -/
def dedupFirst (l : List String) : List String := l.foldl insertIfAbsent []

/-- Python `str.split()` (split on whitespace runs, dropping empties). -/
def swStep (c : Char) (acc : List Char × List (List Char)) :
    List Char × List (List Char) :=
  if isSpaceChar c then
    match acc with
    | ([], ws) => ([], ws)
    | (w, ws) => ([], w :: ws)
  else (c :: acc.1, acc.2)

def splitWords (s : String) : List String :=
  (match s.toList.foldr swStep ([], []) with
   | ([], ws) => ws
   | (w, ws) => w :: ws).map String.mk

/-- Python `' '.join(words)`. -/
def joinWords (l : List String) : String := String.intercalate " " l

-- sanity checks for the scanners (concrete behavior matches the Python)
example : tokenize "Alpha beta.\n\ngamma-delta x2 ab" = ["alpha", "beta", "gamma-delta"] := by decide
example : splitParas "a b\n\nc\n d" = ["a b", "c\n d"] := by decide
example : splitParas "a\n \nb" = ["a", "b"] := by decide
example : tokenize_by_paragraph "alpha beta.\n\ngamma delta." = [["alpha", "beta"], ["gamma", "delta"]] := by decide
example : splitWords "  foo  bar " = ["foo", "bar"] := by decide
example : splitWords "   " = [] := by decide
example : stripStr "  # head " = "# head" := by decide
example : dedupFirst ["b", "a", "b", "c"] = ["b", "a", "c"] := by decide
example : qw "aren" "t" ∈ STOPWORDS := by decide

/-! ### compute_tf: term frequency normalized by the maximum count -/

/-- Maximum occurrence count over the distinct members of `tokens` (Python
    `max(counts.values())`; the fold seed 0 is below every actual count). -/
def maxFreqOf (tokens : List String) : ℕ :=
  ((dedupFirst tokens).map (fun t => tokens.count t)).foldl Nat.max 0

/-- `compute_tf(tokens)` from the source: each distinct token mapped to its
    count divided by the maximum count; empty input gives an empty mapping. -/
def compute_tf (tokens : List String) : List (String × ℚ) :=
  match dedupFirst tokens with
  | [] => []
  | keys => keys.map (fun t => (t, (tokens.count t : ℚ) / (maxFreqOf tokens : ℚ)))

/-! ### compute_positional_boost -/

/-- Python `text.split(chr(10))`: split into lines, keeping empty pieces. -/
def splitLinesCh : List Char → List (List Char)
  | [] => [[]]
  | c :: cs =>
    if c = '\n' then [] :: splitLinesCh cs
    else
      match splitLinesCh cs with
      | [] => [[c]]
      | l :: ls => (c :: l) :: ls

def splitLines (s : String) : List String := (splitLinesCh s.toList).map String.mk

/-- Python `stripped.startswith(chr(35))`: first character is a hash mark. -/
def startsWithHash (s : String) : Bool :=
  match s.toList with
  | '#' :: _ => true
  | _ => false

/-- The line-classification loop of `compute_positional_boost`: collect header
    terms and first-paragraph terms (the accumulating Python sets are only
    used for membership, so lists with duplicates are equivalent). -/
def posSetsGo : List String → Bool → List String → List String →
    List String × List String
  | [], _, hs, fs => (hs, fs)
  | line :: rest, inFirst, hs, fs =>
    let stripped := stripStr line
    if startsWithHash stripped then
      posSetsGo rest inFirst (hs ++ tokenize stripped) fs
    else if stripped = "" ∧ inFirst = true then
      posSetsGo rest false hs fs
    else if inFirst then
      posSetsGo rest inFirst hs (fs ++ tokenize stripped)
    else
      posSetsGo rest inFirst hs fs

/-- Header-term set and first-paragraph-term set of a document. -/
def posSets (text : String) : List String × List String :=
  posSetsGo (splitLines text) true [] []

/-- `compute_positional_boost(text, terms)` from the source. -/
def compute_positional_boost (text : String) (terms : List String) :
    List (String × ℚ) :=
  terms.map (fun term =>
    (term,
      1 + (if (splitWords term).any (fun w => decide (w ∈ (posSets text).1)) then 3/10 else 0)
        + (if (splitWords term).any (fun w => decide (w ∈ (posSets text).2)) then 1/10 else 0)))

/-! ### textrank -/

/-- The stopword/generic filter applied before graph construction. -/
def filteredOf (tokens : List String) : List String :=
  tokens.filter (fun t => decide (t ∉ STOPWORDS ∧ t ∉ GENERIC_TERMS))

/-- The ordered position pairs visited by the double loop
    `for i in range(len(l)): for j in range(i+1, min(i+window, len(l)))`,
    mapped to the words at those positions. -/
def windowPairs (l : List String) (window : ℕ) : List (String × String) :=
  (List.range l.length).flatMap (fun i =>
    ((List.range (min (i + window) l.length)).drop (i + 1)).map
      (fun j => (l.getD i "", l.getD j "")))

/-- One `cooccur[(w1, w2)] += 1; cooccur[(w2, w1)] += 1` update on the
    defaultdict-as-total-function. -/
def bump (W : String → String → ℚ) (a b : String) : String → String → ℚ :=
  fun x y => W x y + (if x = a ∧ y = b then 1 else 0) + (if x = b ∧ y = a then 1 else 0)

/-- The co-occurrence weights of the source: fold the window pairs, skipping
    equal-word pairs (`if w1 != w2`). -/
def buildCooccur (l : List String) (window : ℕ) : String → String → ℚ :=
  (windowPairs l window).foldl (fun W p => if p.1 ≠ p.2 then bump W p.1 p.2 else W)
    (fun _ _ => 0)

/-- `out_degree[src] = sum of outgoing edge weights` (iterating the defaultdict
    items is summation over the vocabulary; entries outside it are 0). -/
def outDegOf (W : String → String → ℚ) (vocab : List String) (s : String) : ℚ :=
  (vocab.map (fun t => W s t)).sum

/-- One PageRank round of the source: `new_scores[tgt]` starts at `(1-d)/n` and
    receives `damping * scores[src] * weight / out_degree[src]` for every edge,
    guarded by `out_degree[src] > 0`. -/
def prStep (n d : ℚ) (vocab : List String) (W : String → String → ℚ)
    (od : String → ℚ) (sc : String → ℚ) : String → ℚ :=
  fun t => (1 - d) / n +
    (vocab.map (fun s => if 0 < od s then d * sc s * W s t / od s else 0)).sum

/-- `textrank(tokens, window, damping, iterations)` from the source.  The
    `word_to_idx` indexing is a bijective renaming of vocabulary words and is
    elided; scores are kept as a function on words.  `list(set(filtered))` has
    unspecified order; first-occurrence order is used (the returned mapping is
    order-independent). -/
def textrank (tokens : List String) (window : ℕ) (damping : ℚ)
    (iterations : ℕ) : List (String × ℚ) :=
  let filtered := filteredOf tokens
  if filtered.length < 3 then []
  else
    let vocab := dedupFirst filtered
    let n : ℚ := (vocab.length : ℚ)
    let W := buildCooccur filtered window
    let od := outDegOf W vocab
    let final := (prStep n damping vocab W od)^[iterations] (fun _ => 1 / n)
    vocab.map (fun w => (w, final w))

/-! ### Reference computation of spec section 4.3 (for claim C2).

    Modelled from the spec: "for every token at position i, connect it to
    every other distinct token at position j in [i+1, i+w); accumulate a
    symmetric weight for each unordered pair (both directions recorded
    explicitly with equal weight)"; each iteration computes
    `(1-d)/n + d * sum over incoming edges(source_score * edge_weight /
    source_out_degree)` with zero out-degree guarded; scores start at `1/n`;
    fixed iteration count; fewer than 3 filtered tokens give an empty map. -/

/-- Spec weight of the unordered pair of two distinct words: how many window
    position pairs carry that pair (in either orientation); self-pairs have no
    edge. -/
def specWeight (l : List String) (window : ℕ) (a b : String) : ℚ :=
  if a = b then 0
  else ((windowPairs l window).countP (fun p => decide (p = (a, b) ∨ p = (b, a))) : ℚ)

/-- Spec out-degree: sum of edge weights leaving a node. -/
def specOutDeg (l : List String) (window : ℕ) (vocab : List String) (s : String) : ℚ :=
  (vocab.map (fun t => specWeight l window s t)).sum

/-- Spec update round: damped sum over incoming edges, factored as the spec
    writes it. -/
def specStep (l : List String) (window : ℕ) (n d : ℚ) (vocab : List String)
    (sc : String → ℚ) : String → ℚ :=
  fun t => (1 - d) / n +
    d * (vocab.map (fun s =>
      if 0 < specOutDeg l window vocab s then
        sc s * specWeight l window s t / specOutDeg l window vocab s
      else 0)).sum

/-- The reference textrank computation, written from the spec text. -/
def textrankSpec (tokens : List String) (window : ℕ) (damping : ℚ)
    (iterations : ℕ) : List (String × ℚ) :=
  let filtered := filteredOf tokens
  if filtered.length < 3 then []
  else
    let vocab := dedupFirst filtered
    let n : ℚ := (vocab.length : ℚ)
    let final := (specStep filtered window n damping vocab)^[iterations] (fun _ => 1 / n)
    vocab.map (fun w => (w, final w))

/-! ### N-gram generation (paragraph-scoped) -/

/-- `extract_ngrams_from_paragraphs(paragraph_tokens, n)` from the source.
    `range(len(tokens) - n + 1)` is `List.range (len + 1 - n)` (empty when
    `n > len`, as the Python range is for a negative bound).  The `gram[0]` /
    `gram[-1]` accesses are total here for every `n ≥ 1`; the source is only
    called with `n ∈ {2, 3}`. -/
def extract_ngrams_from_paragraphs (pts : List (List String)) (n : ℕ) :
    List String :=
  pts.flatMap (fun tokens =>
    (List.range (tokens.length + 1 - n)).filterMap (fun i =>
      let gram := (tokens.drop i).take n
      if (gram.headD "") ∈ STOPWORDS ∨ (gram.getLastD "") ∈ STOPWORDS then none
      else if gram.all (fun w => decide (w ∈ STOPWORDS)) then none
      else some (joinWords gram)))

-- sanity checks
example : compute_tf ["b", "a", "b"] = [("b", 1), ("a", 1/2)] := by decide
example : compute_tf [] = [] := by decide
example : posSets "# Alpha Beta\n\ngamma delta" = (["alpha", "beta"], []) := by decide
example : posSets "gamma delta\nmore here\n\nlater words" =
    ([], ["gamma", "delta", "more", "here"]) := by decide
example : extract_ngrams_from_paragraphs [["alpha", "beta"], ["gamma", "delta"]] 2 =
    ["alpha beta", "gamma delta"] := by decide
example : extract_ngrams_from_paragraphs [["the", "graph", "model"]] 2 = ["graph model"] := by decide
example : windowPairs ["x", "y", "z"] 2 = [("x", "y"), ("y", "z")] := by decide
example : buildCooccur ["x", "y", "z"] 3 "x" "y" = 1 := by decide
example : buildCooccur ["x", "y", "x"] 3 "x" "y" = 2 := by decide
example : buildCooccur ["x", "y", "x"] 3 "x" "x" = 0 := by decide

/-! ### extract_compound_terms: four line-by-line regex families -/

/-- Greedy `[a-z]+(-[a-z]+)*` segment parse for the hyphenated-compound
    pattern (consecutive hyphens or a trailing hyphen end the segment list). -/
def hySegsGo : ℕ → List Char → List (List Char) × List Char
  | 0, cs => ([], cs)
  | fuel + 1, cs =>
    let seg := cs.takeWhile isLowerAZ
    let rest := cs.dropWhile isLowerAZ
    match rest with
    | '-' :: d :: ds =>
      if isLowerAZ d then
        let r := hySegsGo fuel (d :: ds)
        (seg :: r.1, r.2)
      else (seg :: [], rest)
    | _ => (seg :: [], rest)

/-- Join segments with hyphens (reconstructs the matched text). -/
def joinHy : List (List Char) → List Char
  | [] => []
  | [s] => s
  | s :: rest => s ++ '-' :: joinHy rest

/-- Scanner for `\b([a-z]+-[a-z]+(?:-[a-z]+)*)\b` over the lowered line, with
    the source's filter (`len > 5`, first segment not a stopword) and
    hyphen-to-space replacement.  With a word character right after the greedy
    segment run, backtracking ends the match before the last hyphen (possible
    only with at least 3 segments); with only 2 segments there is no match at
    that start. -/
def hyScanGo : ℕ → Bool → List Char → List String
  | 0, _, _ => []
  | _ + 1, _, [] => []
  | fuel + 1, prevW, c :: cs =>
    if isLowerAZ c && !prevW then
      let full := c :: cs
      let parsed := hySegsGo full.length full
      let segs := parsed.1
      let nextW := match parsed.2 with | [] => false | d :: _ => isWordChar d
      let matched : Option (List Char) :=
        if 2 ≤ segs.length ∧ nextW = false then some (joinHy segs)
        else if 3 ≤ segs.length ∧ nextW = true then some (joinHy segs.dropLast)
        else none
      match matched with
      | some M =>
        let emit := 5 < M.length ∧ String.mk (segs.headD []) ∉ STOPWORDS
        let tl := hyScanGo fuel true (full.drop M.length)
        if emit then String.mk (M.map (fun d => if d = '-' then ' ' else d)) :: tl
        else tl
      | none => hyScanGo fuel (isWordChar c) cs
    else hyScanGo fuel (isWordChar c) cs

/-- Greedy `([A-Z][a-z]+)+` block parse for the CamelCase pattern. -/
def camBlocksGo : ℕ → List Char → List (List Char) × List Char
  | 0, cs => ([], cs)
  | fuel + 1, cs =>
    match cs with
    | u :: rest =>
      if isUpperAZ u then
        let lows := rest.takeWhile isLowerAZ
        if lows.isEmpty then ([], cs)
        else
          let r := camBlocksGo fuel (rest.dropWhile isLowerAZ)
          ((u :: lows) :: r.1, r.2)
      else ([], cs)
    | [] => ([], cs)

/-- Scanner for `\b([A-Z][a-z]+(?:[A-Z][a-z]+)+)\b` over the original line;
    matches are emitted verbatim.  A word character right after the greedy
    block run kills the match (inner block boundaries are word-word, so
    backtracking cannot produce a shorter match). -/
def camScanGo : ℕ → Bool → List Char → List String
  | 0, _, _ => []
  | _ + 1, _, [] => []
  | fuel + 1, prevW, c :: cs =>
    if isUpperAZ c && !prevW then
      let full := c :: cs
      let parsed := camBlocksGo full.length full
      let blocks := parsed.1
      let nextW := match parsed.2 with | [] => false | d :: _ => isWordChar d
      if 2 ≤ blocks.length ∧ nextW = false then
        let M := blocks.flatten
        String.mk M :: camScanGo fuel true (full.drop M.length)
      else camScanGo fuel (isWordChar c) cs
    else camScanGo fuel (isWordChar c) cs

/-- Greedy `[A-Z][a-z]+(\s+[A-Z][a-z]+)*` parse for the capitalized-phrase
    pattern: returns the words, the separator runs between them, and the rest. -/
def capGo : ℕ → List Char → List (List Char) × List (List Char) × List Char
  | 0, cs => ([], [], cs)
  | fuel + 1, cs =>
    match cs with
    | u :: rest =>
      if isUpperAZ u then
        let lows := rest.takeWhile isLowerAZ
        if lows.isEmpty then ([], [], cs)
        else
          let rest2 := rest.dropWhile isLowerAZ
          let sp := rest2.takeWhile isSpaceChar
          if sp.isEmpty then ([u :: lows], [], rest2)
          else
            match capGo fuel (rest2.dropWhile isSpaceChar) with
            | ([], _, _) => ([u :: lows], [], rest2)
            | (ws, seps, r) => ((u :: lows) :: ws, sp :: seps, r)
      else ([], [], cs)
    | [] => ([], [], cs)

/-- Reconstruct the matched text of a capitalized phrase from words and
    separator runs. -/
def capCons : List (List Char) → List (List Char) → List Char
  | [], _ => []
  | [w], _ => w
  | w :: ws, [] => w ++ capCons ws []
  | w :: ws, s :: ss => w ++ s ++ capCons ws ss

/-- Is this character allowed by the `(?=[,.\s])` lookahead? -/
def isCapFollow (c : Char) : Bool := c = ',' || c = '.' || isSpaceChar c

/-- Scanner for `(?<=[.!?\s])([A-Z][a-z]+(?:\s+[A-Z][a-z]+)+)(?=[,.\s])` over
    the original line, with the source's filter (at most 4 words, not all
    stopwords).  A failing lookahead after the greedy word run backtracks by
    exactly one word (the preceding separator satisfies the lookahead); a
    two-word run with failing lookahead has no match at that start. -/
def capScanGo : ℕ → Option Char → List Char → List String
  | 0, _, _ => []
  | _ + 1, _, [] => []
  | fuel + 1, prevC, c :: cs =>
    let behindOk := match prevC with
      | some p => p = '.' || p = '!' || p = '?' || isSpaceChar p
      | none => false
    if behindOk && isUpperAZ c then
      let full := c :: cs
      let parsed := capGo full.length full
      let ws := parsed.1
      let seps := parsed.2.1
      let nextOk := match parsed.2.2 with | [] => false | d :: _ => isCapFollow d
      let matched : Option (List Char) :=
        if 2 ≤ ws.length ∧ nextOk = true then some (capCons ws seps)
        else if 3 ≤ ws.length ∧ nextOk = false then
          some (capCons ws.dropLast seps.dropLast)
        else none
      match matched with
      | some M =>
        let phrase := String.mk M
        let words := splitWords phrase
        let emit := words.length ≤ 4 ∧
          ¬ (words.all (fun w => decide (strLower w ∈ STOPWORDS)))
        let tl := capScanGo fuel M.getLast? (full.drop M.length)
        if emit then phrase :: tl else tl
      | none => capScanGo fuel (some c) cs
    else capScanGo fuel (some c) cs

/-- Scanner for quoted spans `"([^"]{3,40})"`, with the source's filter (first
    character not a digit, at most 5 whitespace-separated words).  A span
    whose content is shorter than 3 or longer than 40 is not a match and its
    closing quote becomes the next opening candidate. -/
def quoteScanGo : ℕ → List Char → List String
  | 0, _ => []
  | _ + 1, [] => []
  | fuel + 1, c :: cs =>
    if c = '"' then
      let content := cs.takeWhile (fun d => !(d = '"'))
      let rest := cs.dropWhile (fun d => !(d = '"'))
      match rest with
      | [] => []
      | _ :: rest2 =>
        if 3 ≤ content.length ∧ content.length ≤ 40 then
          let term := String.mk content
          let keep := (match content with
            | d :: _ => !d.isDigit
            | [] => true) = true ∧ (splitWords term).length ≤ 5
          let tl := quoteScanGo fuel rest2
          if keep then term :: tl else tl
        else quoteScanGo fuel rest
    else quoteScanGo fuel cs

/-- `extract_compound_terms(text)` from the source: the four families are
    collected line by line, in source order. -/
def extract_compound_terms (text : String) : List String :=
  (splitLines text).flatMap (fun line =>
    let lowChars := (strLower line).toList
    let origChars := line.toList
    hyScanGo (lowChars.length + 1) false lowChars ++
    camScanGo (origChars.length + 1) false origChars ++
    capScanGo (origChars.length + 1) none origChars ++
    quoteScanGo (origChars.length + 1) origChars)

-- sanity checks against the Python behavior
example : extract_compound_terms "uses cross-dimensional traversal" =
    ["cross dimensional"] := by decide
example : extract_compound_terms "the TagConceptBridger and EngineSink" =
    ["TagConceptBridger", "EngineSink"] := by decide
example : extract_compound_terms "then Seed Promotion, occurs" = ["Seed Promotion"] := by decide
example : extract_compound_terms "a \"quoted term\" here" = ["quoted term"] := by decide
example : extract_compound_terms "a \"   \" here" = ["   "] := by decide
example : extract_compound_terms "ab-cd and x-y" = [] := by decide
example : extract_compound_terms "also the-algorithm runs" = [] := by decide
example : extract_compound_terms "Alpha Beta" = [] := by decide
example : extract_compound_terms "so The Machine, yes" = ["The Machine"] := by decide

/-! ### merge_and_rank -/

/-- Candidate-pool assembly of `merge_and_rank` (a Python set, modeled as a
    first-insertion-ordered duplicate-free list; iteration order over it only
    affects tie order in the final sort, which no claim depends on). -/
def allTermsOf (textrank_scores : List (String × ℚ)) (compound_terms : List String)
    (bigrams trigrams : List String) : List String :=
  let s1 := (textrank_scores.map Prod.fst).foldl
    (fun acc term =>
      if term ∉ STOPWORDS ∧ term ∉ GENERIC_TERMS ∧ 2 < term.length then
        insertIfAbsent acc term
      else acc) []
  let s2 := (dedupFirst bigrams).foldl
    (fun acc bg =>
      let words := splitWords bg
      let trScore := (words.map (fun w => lookupD textrank_scores w 0)).sum
      if (2 ≤ bigrams.count bg ∨ 1/100 < trScore) ∧
          ¬ (words.all (fun w => decide (w ∈ STOPWORDS ∨ w ∈ GENERIC_TERMS))) then
        insertIfAbsent acc bg
      else acc) s1
  let s3 := (dedupFirst trigrams).foldl
    (fun acc tg =>
      if 2 ≤ trigrams.count tg ∧
          ¬ ((splitWords tg).all (fun w => decide (w ∈ STOPWORDS ∨ w ∈ GENERIC_TERMS))) then
        insertIfAbsent acc tg
      else acc) s2
  compound_terms.foldl
    (fun acc ct =>
      let cl := strLower ct
      if '\n' ∈ cl.toList then acc else insertIfAbsent acc cl) s3

/-- The parenthesized component combination of the source's score formula:
    `tf_component * 0.3 + tr_component * 0.4 + freq_component * 0.3`. -/
def baseComponents (tf_scores textrank_scores : List (String × ℚ))
    (bigrams trigrams : List String) (term : String) : ℚ :=
  let words := splitWords term
  let tfC := (words.map (fun w => lookupD tf_scores w 0)).sum / (words.length : ℚ)
  let trC := (words.map (fun w => lookupD textrank_scores w 0)).sum
  let freqC :=
    if words.length = 1 then lookupD tf_scores term 0
    else if words.length = 2 then (bigrams.count term : ℚ) / (max bigrams.length 1 : ℚ)
    else (trigrams.count term : ℚ) / (max trigrams.length 1 : ℚ)
  tfC * (3/10) + trC * (4/10) + freqC * (3/10)

/-- Scoring of one candidate term.  The source's very first component,
    `sum(...) / len(words)`, raises ZeroDivisionError when the term splits
    into zero words; this is the only fallible statement. -/
def scoreTerm (tf_scores textrank_scores positional_boosts : List (String × ℚ))
    (bigrams trigrams : List String) (term : String) : Except String ℚ :=
  let words := splitWords term
  if words.isEmpty then
    Except.error "ZeroDivisionError: len(words) = 0 in tf_component"
  else
    let lengthBonus : ℚ := 1 + (2/10) * ((words.length : ℚ) - 1)
    let posBoost := lookupD positional_boosts term 1
    Except.ok (baseComponents tf_scores textrank_scores bigrams trigrams term *
      lengthBonus * posBoost)

/-- The post-filter loop: drop multi-word terms with repeated words and terms
    whose first or last word is a stopword.  `words[0]` on a term with no
    words raises IndexError (reachable only if scoring had not already
    raised). -/
def postFilter : List (String × ℚ) → Except String (List (String × ℚ))
  | [] => Except.ok []
  | (term, score) :: rest =>
    let words := splitWords term
    if 1 < words.length ∧ (dedupFirst words).length < words.length then
      postFilter rest
    else
      match words with
      | [] => Except.error "IndexError: words[0] with no words"
      | w :: _ =>
        if w ∈ STOPWORDS ∨ words.getLastD "" ∈ STOPWORDS then postFilter rest
        else do
          let r ← postFilter rest
          Except.ok ((term, score) :: r)

/-- Stable insertion into a descending-by-score list (an earlier element stays
    before later elements of equal score, as Python's stable `sorted` with key
    `-score` does). -/
def insDesc (p : String × ℚ) : List (String × ℚ) → List (String × ℚ)
  | [] => [p]
  | q :: rest => if p.2 < q.2 then q :: insDesc p rest else p :: q :: rest

/-- `sorted(items, key=lambda x: -x[1])`: stable descending sort by score. -/
def sortDesc (l : List (String × ℚ)) : List (String × ℚ) := l.foldr insDesc []

/-- The `for term in all_terms` scoring loop: build the scored pairs in
    order, stopping at the first raised error. -/
def scoreAll (tf_scores textrank_scores positional_boosts : List (String × ℚ))
    (bigrams trigrams : List String) : List String → Except String (List (String × ℚ))
  | [] => Except.ok []
  | t :: ts => do
    let s ← scoreTerm tf_scores textrank_scores positional_boosts bigrams trigrams t
    let rest ← scoreAll tf_scores textrank_scores positional_boosts bigrams trigrams ts
    Except.ok ((t, s) :: rest)

/-- `merge_and_rank(...)` from the source. -/
def merge_and_rank (tf_scores textrank_scores : List (String × ℚ))
    (compound_terms : List String) (positional_boosts : List (String × ℚ))
    (paragraph_tokens : List (List String)) (max_terms : ℕ) :
    Except String (List (String × ℚ)) :=
  let bigrams := extract_ngrams_from_paragraphs paragraph_tokens 2
  let trigrams := extract_ngrams_from_paragraphs paragraph_tokens 3
  let allTerms := allTermsOf textrank_scores compound_terms bigrams trigrams
  do
    let scored ← scoreAll tf_scores textrank_scores positional_boosts bigrams trigrams
      allTerms
    let filtered ← postFilter scored
    Except.ok ((sortDesc filtered).take max_terms)

/-! ### The pipeline orchestrator `process` -/

/-- The `stats` object of the result: the short form carries only
    `token_count`; the full form carries all four fields. -/
inductive Stats where
  | short (token_count : ℕ)
  | full (token_count unique_tokens textrank_nodes compound_terms_found : ℕ)
deriving DecidableEq, Repr

/-- The `data` payload of a successful extraction (`success` is implied:
    the Python script returns success in both branches and every Python
    exception is an `Except.error` here). -/
structure ExtractionData where
  candidate_terms : List (String × ℚ)
  stats : Stats
deriving DecidableEq, Repr

/-- Python `round(x, 4)` on the idealized rational value (round half to even). -/
def round4 (x : ℚ) : ℚ :=
  let y := x * 10000
  let f : ℤ := ⌊y⌋
  let r := y - (f : ℚ)
  let n : ℤ :=
    if r < 1/2 then f
    else if 1/2 < r then f + 1
    else if f % 2 = 0 then f else f + 1
  (n : ℚ) / 10000

/-- `process(text)` from the source: the full extraction pipeline. -/
def process (text : String) : Except String ExtractionData :=
  let tokens := tokenize text
  let paragraph_tokens := tokenize_by_paragraph text
  if tokens.length < 10 then
    Except.ok ⟨[], Stats.short tokens.length⟩
  else
    let tf_scores := compute_tf
      (tokens.filter (fun t => decide (t ∉ STOPWORDS ∧ t ∉ GENERIC_TERMS)))
    let tr_scores := textrank tokens 5 (85/100) 30
    let compounds := extract_compound_terms text
    let all_candidates := dedupFirst
      ((tf_scores.map Prod.fst) ++ (tr_scores.map Prod.fst) ++ compounds.map strLower)
    let pos_boosts := compute_positional_boost text all_candidates
    do
      let ranked ← merge_and_rank tf_scores tr_scores compounds pos_boosts
        paragraph_tokens 25
      Except.ok ⟨ranked.map (fun p => (p.1, round4 p.2)),
        Stats.full tokens.length (dedupFirst tokens).length tr_scores.length
          compounds.length⟩

-- sanity checks
example : process "tiny text" = Except.ok ⟨[], Stats.short 2⟩ := by decide
example : sortDesc [("a", 1/2), ("b", 3/4), ("c", 1/2)] =
    [("b", 3/4), ("a", 1/2), ("c", 1/2)] := by decide
example : postFilter [("the graph", 1)] = Except.ok [] := by decide
example : postFilter [("graph graph", 1)] = Except.ok [] := by decide
example : postFilter [("graph model", 1)] = Except.ok [("graph model", 1)] := by decide
example : (scoreTerm [] [] [] [] [] "   ").isOk = false := by decide
example : allTermsOf [("graph", 1/2)] ["Tag Bridge"] ["graph model"] [] =
    ["graph", "graph model", "tag bridge"] := by decide

/-! ### Helper lemmas: set-as-list insertion, dedup, lookup -/

lemma mem_insertIfAbsent (l : List String) (x y : String) :
    y ∈ insertIfAbsent l x ↔ y ∈ l ∨ y = x := by
  unfold insertIfAbsent
  split
  · constructor
    · exact Or.inl
    · rintro (hy | rfl)
      · exact hy
      · assumption
  · simp [List.mem_append]

lemma mem_foldl_insertIfAbsent (l acc : List String) (y : String) :
    y ∈ l.foldl insertIfAbsent acc ↔ y ∈ acc ∨ y ∈ l := by
  induction l generalizing acc with
  | nil => simp
  | cons a t ih => simp [List.foldl_cons, ih, mem_insertIfAbsent]; tauto

lemma mem_dedupFirst (l : List String) (y : String) :
    y ∈ dedupFirst l ↔ y ∈ l := by
  unfold dedupFirst
  simp [mem_foldl_insertIfAbsent]

lemma nodup_insertIfAbsent (l : List String) (x : String) (h : l.Nodup) :
    (insertIfAbsent l x).Nodup := by
  unfold insertIfAbsent
  split
  · exact h
  · simp_all [List.nodup_append]

lemma nodup_foldl_insertIfAbsent (l acc : List String) (h : acc.Nodup) :
    (l.foldl insertIfAbsent acc).Nodup := by
  induction l generalizing acc with
  | nil => exact h
  | cons a t ih => exact ih _ (nodup_insertIfAbsent _ _ h)

lemma nodup_dedupFirst (l : List String) : (dedupFirst l).Nodup :=
  nodup_foldl_insertIfAbsent l [] List.nodup_nil

lemma foldl_insertIfAbsent_sublist (l acc : List String) :
    List.Sublist (l.foldl insertIfAbsent acc) (acc ++ l) := by
  induction l generalizing acc with
  | nil => simp
  | cons a t ih =>
    refine (ih (insertIfAbsent acc a)).trans ?_
    unfold insertIfAbsent
    split
    · exact (List.sublist_cons_self a t).append_left acc
    · rw [List.append_assoc]
      simp
lemma dedupFirst_sublist (l : List String) : List.Sublist (dedupFirst l) l :=
  foldl_insertIfAbsent_sublist l []

lemma lookupD_map_fn (keys : List String) (f : String → ℚ) (t : String) (d : ℚ)
    (h : t ∈ keys) :
    lookupD (keys.map (fun k => (k, f k))) t d = f t := by
  induction keys with
  | nil => cases h
  | cons k ks ih =>
    simp only [List.map_cons, lookupD]
    by_cases hk : t = k
    · subst hk; simp
    · cases h with
      | head => exact absurd rfl hk
      | tail _ h => simp [hk, ih h]

/-! ### Helper lemmas: folded maximum -/

lemma foldlMax_le (xs : List ℕ) (a : ℕ) : a ≤ xs.foldl Nat.max a := by
  induction xs generalizing a with
  | nil => exact Nat.le_refl a
  | cons x t ih => exact Nat.le_trans (Nat.le_max_left a x) (ih (Nat.max a x))

lemma le_foldlMax_of_mem (xs : List ℕ) (a x : ℕ) (h : x ∈ xs) :
    x ≤ xs.foldl Nat.max a := by
  induction xs generalizing a with
  | nil => cases h
  | cons y t ih =>
    cases h with
    | head => exact Nat.le_trans (Nat.le_max_right a x) (foldlMax_le t _)
    | tail _ h => exact ih _ h

lemma foldlMax_choice (xs : List ℕ) (a : ℕ) :
    xs.foldl Nat.max a = a ∨ xs.foldl Nat.max a ∈ xs := by
  induction xs generalizing a with
  | nil => exact Or.inl rfl
  | cons y t ih =>
    rcases ih (Nat.max a y) with h | h
    · rcases Nat.le_total a y with hle | hle
      · exact Or.inr (by
          have hm : a.max y = y := Nat.max_eq_right hle
          rw [List.foldl_cons, h, hm]
          exact List.mem_cons_self y t)
      · exact Or.inl (by
          have hm : a.max y = a := Nat.max_eq_left hle
          rw [List.foldl_cons, h, hm])
    · exact Or.inr (List.mem_cons_of_mem y h)

lemma count_le_maxFreq (tokens : List String) (t : String) (h : t ∈ tokens) :
    tokens.count t ≤ maxFreqOf tokens := by
  unfold maxFreqOf
  exact le_foldlMax_of_mem _ _ _
    (List.mem_map_of_mem _ ((mem_dedupFirst tokens t).mpr h))

lemma maxFreq_attained (tokens : List String) (h : tokens ≠ []) :
    ∃ t ∈ tokens, tokens.count t = maxFreqOf tokens := by
  rcases foldlMax_choice ((dedupFirst tokens).map (fun t => tokens.count t)) 0 with hc | hc
  · exfalso
    rcases List.exists_mem_of_ne_nil tokens h with ⟨x, hx⟩
    have h1 : 0 < tokens.count x := List.count_pos_iff.mpr hx
    have h2 : tokens.count x ≤ maxFreqOf tokens := count_le_maxFreq tokens x hx
    rw [maxFreqOf, hc] at h2
    omega
  · rcases List.mem_map.mp hc with ⟨t, ht, hv⟩
    exact ⟨t, (mem_dedupFirst tokens t).mp ht, hv⟩

lemma compute_tf_eq (l : List String) (h : dedupFirst l ≠ []) :
    compute_tf l =
      (dedupFirst l).map (fun t => (t, (l.count t : ℚ) / (maxFreqOf l : ℚ))) := by
  unfold compute_tf
  cases hd : dedupFirst l with
  | nil => exact absurd hd h
  | cons k ks => rfl

/-- C8: compute_tf maps every term of a non-empty token list to its count
    divided by the maximum observed count (so a maximizing term scores exactly
    1), and the empty token list yields the empty mapping rather than an
    error. -/
theorem claim8_compute_tf_normalization :
    compute_tf [] = [] ∧
    (∀ (l : List String) (t : String), t ∈ l →
      lookupD (compute_tf l) t 0 = (l.count t : ℚ) / (maxFreqOf l : ℚ)) ∧
    (∀ (l : List String) (t : String), t ∈ l → l.count t ≤ maxFreqOf l) ∧
    (∀ l : List String, l ≠ [] →
      ∃ t ∈ l, l.count t = maxFreqOf l ∧ lookupD (compute_tf l) t 0 = 1) := by
  refine ⟨rfl, ?_, ?_, ?_⟩
  · intro l t ht
    have hne : dedupFirst l ≠ [] := by
      intro hnil
      have := (mem_dedupFirst l t).mpr ht
      rw [hnil] at this
      cases this
    rw [compute_tf_eq l hne]
    exact lookupD_map_fn _ _ _ _ ((mem_dedupFirst l t).mpr ht)
  · exact count_le_maxFreq
  · intro l hl
    rcases maxFreq_attained l hl with ⟨t, ht, hmax⟩
    refine ⟨t, ht, hmax, ?_⟩
    have hne : dedupFirst l ≠ [] := by
      intro hnil
      have := (mem_dedupFirst l t).mpr ht
      rw [hnil] at this
      cases this
    rw [compute_tf_eq l hne, lookupD_map_fn _ _ _ _ ((mem_dedupFirst l t).mpr ht), hmax]
    have hpos : 0 < maxFreqOf l := by
      have h1 : 0 < l.count t := List.count_pos_iff.mpr ht
      omega
    exact div_self (by exact_mod_cast Nat.pos_iff_ne_zero.mp hpos)

/-- C8 witness at a concrete token list. -/
theorem claim8_witness :
    (("beta" : String) ∈ ["beta", "alpha", "beta"] ∧
      lookupD (compute_tf ["beta", "alpha", "beta"]) "beta" 0 =
        ((["beta", "alpha", "beta"] : List String).count "beta" : ℚ) /
          (maxFreqOf ["beta", "alpha", "beta"] : ℚ)) ∧
    ((["beta", "alpha", "beta"] : List String) ≠ [] ∧
      ∃ t ∈ ["beta", "alpha", "beta"],
        (["beta", "alpha", "beta"] : List String).count t =
          maxFreqOf ["beta", "alpha", "beta"] ∧
        lookupD (compute_tf ["beta", "alpha", "beta"]) t 0 = 1) :=
  ⟨⟨by decide, claim8_compute_tf_normalization.2.1 _ _ (by decide)⟩,
   ⟨by decide, claim8_compute_tf_normalization.2.2.2 _ (by decide)⟩⟩

/-- C4: an input tokenizing to fewer than 10 tokens short-circuits to a
    successful result whose candidate list is empty and whose stats carry only
    the token count. -/
theorem claim4_minimum_input_guard (text : String)
    (h : (tokenize text).length < 10) :
    process text = Except.ok ⟨[], Stats.short (tokenize text).length⟩ := by
  unfold process
  simp [h]

/-- C4 witness at a concrete two-token input. -/
theorem claim4_witness :
    (tokenize "small demo").length < 10 ∧
    process "small demo" = Except.ok ⟨[], Stats.short (tokenize "small demo").length⟩ :=
  ⟨by decide, claim4_minimum_input_guard "small demo" (by decide)⟩

/-! ### Claim C3: n-grams never span paragraph boundaries -/

/-- C3: every n-gram produced by the paragraph-aware generator is the
    space-join of a length-n contiguous slice of a single paragraph's token
    list, and the concrete two-paragraph input of the spec short-circuits to
    an empty candidate list, which in particular contains no cross-paragraph
    bigram. -/
theorem claim3_paragraph_boundary :
    (∀ (pts : List (List String)) (n : ℕ) (g : String),
        g ∈ extract_ngrams_from_paragraphs pts n →
        ∃ tokens ∈ pts, ∃ gram : List String,
          gram.length = n ∧ (∃ pre post, pre ++ (gram ++ post) = tokens) ∧
          g = joinWords gram) ∧
    process "alpha beta.\n\ngamma delta." = Except.ok ⟨[], Stats.short 4⟩ ∧
    (∀ d, process "alpha beta.\n\ngamma delta." = Except.ok d →
      ∀ s : ℚ, ("beta gamma", s) ∉ d.candidate_terms) := by
  refine ⟨?_, by decide, ?_⟩
  · intro pts n g hg
    unfold extract_ngrams_from_paragraphs at hg
    rcases List.mem_flatMap.mp hg with ⟨tokens, htok, hin⟩
    rcases List.mem_filterMap.mp hin with ⟨i, hi, heq⟩
    have hrange : i < tokens.length + 1 - n := List.mem_range.mp hi
    have hin2 : i + n ≤ tokens.length := by omega
    refine ⟨tokens, htok, (tokens.drop i).take n, ?_, ⟨tokens.take i, tokens.drop (i + n), ?_⟩, ?_⟩
    · rw [List.length_take, List.length_drop]
      omega
    · have hdd : (tokens.drop i).drop n = tokens.drop (i + n) := List.drop_drop n i tokens
      rw [← hdd, List.take_append_drop, List.take_append_drop]
    · simp only at heq
      split at heq
      · cases heq
      · split at heq
        · cases heq
        · exact (Option.some_inj.mp heq).symm
  · intro d hd s
    have : d = ⟨[], Stats.short 4⟩ := by
      have h2 : process "alpha beta.\n\ngamma delta." = Except.ok ⟨[], Stats.short 4⟩ := by decide
      rw [h2] at hd
      exact (Except.ok.injEq _ _).mp hd.symm
    rw [this]
    intro hmem
    cases hmem

/-- C3 witness: the infix decomposition at a concrete two-paragraph token
    list. -/
theorem claim3_witness :
    ("alpha beta" ∈
      extract_ngrams_from_paragraphs [["alpha", "beta"], ["gamma", "delta"]] 2) ∧
    ∃ tokens ∈ [["alpha", "beta"], ["gamma", "delta"]], ∃ gram : List String,
      gram.length = 2 ∧ (∃ pre post, pre ++ (gram ++ post) = tokens) ∧
      "alpha beta" = joinWords gram :=
  ⟨by decide, claim3_paragraph_boundary.1 _ 2 _ (by decide)⟩

/-! ### Helper lemmas: Except bind, mapM, postFilter, sortDesc -/

lemma except_bind_ok {α β : Type} (a : α) (g : α → Except String β) :
    (Except.ok a >>= g) = g a := rfl

lemma except_bind_error {α β : Type} (e : String) (g : α → Except String β) :
    ((Except.error e : Except String α) >>= g) = Except.error e := rfl

lemma except_bind_ok_iff {α β : Type} (x : Except String α) (g : α → Except String β)
    (v : β) : (x >>= g) = Except.ok v ↔ ∃ a, x = Except.ok a ∧ g a = Except.ok v := by
  cases x <;> simp [Bind.bind, Except.bind]

lemma scoreAll_ok_keys (tf tr bst : List (String × ℚ)) (bigrams trigrams : List String)
    (l : List String) (out : List (String × ℚ))
    (h : scoreAll tf tr bst bigrams trigrams l = Except.ok out) :
    out.map Prod.fst = l := by
  induction l generalizing out with
  | nil =>
    have : out = [] := by simpa [scoreAll] using h.symm
    simp [this]
  | cons a as ih =>
    unfold scoreAll at h
    rcases (except_bind_ok_iff _ _ _).mp h with ⟨s, _, h2⟩
    rcases (except_bind_ok_iff _ _ _).mp h2 with ⟨rest, hrest, h3⟩
    have hout : out = (a, s) :: rest := by simpa using h3.symm
    subst hout
    simp [ih rest hrest]

lemma scoreAll_error_of_mem (tf tr bst : List (String × ℚ))
    (bigrams trigrams : List String) (l : List String) (t : String) (ht : t ∈ l)
    (msg : String) (he : scoreTerm tf tr bst bigrams trigrams t = Except.error msg) :
    ∃ e, scoreAll tf tr bst bigrams trigrams l = Except.error e := by
  induction l with
  | nil => cases ht
  | cons a as ih =>
    unfold scoreAll
    cases hfa : scoreTerm tf tr bst bigrams trigrams a with
    | error e => exact ⟨e, rfl⟩
    | ok v =>
      cases ht with
      | head => rw [hfa] at he; cases he
      | tail _ hmem =>
        rcases ih hmem with ⟨e, hmap⟩
        refine ⟨e, ?_⟩
        show (scoreAll tf tr bst bigrams trigrams as >>=
          fun rest => Except.ok ((a, v) :: rest)) = Except.error e
        rw [hmap]
        rfl

lemma postFilter_ok_sublist (l out : List (String × ℚ))
    (h : postFilter l = Except.ok out) : List.Sublist out l := by
  induction l generalizing out with
  | nil =>
    have : out = [] := by
      simpa [postFilter] using h.symm
    simp [this]
  | cons p rest ih =>
    obtain ⟨t, s⟩ := p
    unfold postFilter at h
    dsimp only at h
    split at h
    · exact (ih out h).trans (List.sublist_cons_self _ _)
    · split at h
      · cases h
      · split at h
        · exact (ih out h).trans (List.sublist_cons_self _ _)
        · rcases (except_bind_ok_iff _ _ _).mp h with ⟨r, hr, h2⟩
          have : out = (t, s) :: r := by
            have := h2.symm
            simpa using this
          subst this
          exact (ih r hr).cons₂ (t, s)

lemma postFilter_ok_props (l out : List (String × ℚ))
    (h : postFilter l = Except.ok out) :
    ∀ p ∈ out, splitWords p.1 ≠ [] ∧
      (splitWords p.1).headD "" ∉ STOPWORDS ∧
      (splitWords p.1).getLastD "" ∉ STOPWORDS ∧
      (1 < (splitWords p.1).length → (splitWords p.1).Nodup) := by
  induction l generalizing out with
  | nil =>
    have : out = [] := by simpa [postFilter] using h.symm
    subst this
    intro p hp
    cases hp
  | cons q rest ih =>
    obtain ⟨t, s⟩ := q
    unfold postFilter at h
    dsimp only at h
    split at h
    · exact ih out h
    · split at h
      · cases h
      · rename_i hdup words w ws hwords
        split at h
        · exact ih out h
        · rename_i hstop
          rcases (except_bind_ok_iff _ _ _).mp h with ⟨r, hr, h2⟩
          have hout : out = (t, s) :: r := by simpa using h2.symm
          subst hout
          intro p hp
          cases hp with
          | head =>
            have hne : splitWords t ≠ [] := by rw [hwords]; simp
            have hn : (splitWords t).headD "" ∉ STOPWORDS ∧
                (splitWords t).getLastD "" ∉ STOPWORDS := by
              rw [hwords]
              rw [hwords] at hstop
              push_neg at hstop
              simpa using hstop
            refine ⟨hne, hn.1, hn.2, ?_⟩
            intro hlen
            have hnd : ¬ ((dedupFirst (splitWords t)).length < (splitWords t).length) := by
              intro hcon
              exact hdup ⟨hlen, hcon⟩
            have hsub := dedupFirst_sublist (splitWords t)
            have hle := hsub.length_le
            have heq : dedupFirst (splitWords t) = splitWords t :=
              hsub.eq_of_length (by omega)
            rw [← heq]
            exact nodup_dedupFirst _
          | tail _ hmem => exact ih r hr p hmem

lemma insDesc_perm (p : String × ℚ) (l : List (String × ℚ)) :
    List.Perm (insDesc p l) (p :: l) := by
  induction l with
  | nil => exact List.Perm.refl _
  | cons q rest ih =>
    unfold insDesc
    split
    · exact (ih.cons q).trans (List.Perm.swap p q rest)
    · exact List.Perm.refl _

lemma sortDesc_perm (l : List (String × ℚ)) : List.Perm (sortDesc l) l := by
  induction l with
  | nil => exact List.Perm.refl _
  | cons x xs ih => exact (insDesc_perm x (sortDesc xs)).trans (ih.cons x)

/-! ### Helper lemmas: the candidate pool -/

lemma nodup_foldl_of_step (F : List String → String → List String)
    (hF : ∀ acc x, F acc x = acc ∨ ∃ y, F acc x = insertIfAbsent acc y)
    (l acc : List String) (h : acc.Nodup) : (l.foldl F acc).Nodup := by
  induction l generalizing acc with
  | nil => exact h
  | cons a t ih =>
    rw [List.foldl_cons]
    rcases hF acc a with hs | ⟨y, hs⟩
    · rw [hs]; exact ih acc h
    · rw [hs]; exact ih _ (nodup_insertIfAbsent _ _ h)

lemma allTermsOf_nodup (tr : List (String × ℚ)) (cts bigrams trigrams : List String) :
    (allTermsOf tr cts bigrams trigrams).Nodup := by
  unfold allTermsOf
  apply nodup_foldl_of_step
  · intro acc x
    dsimp only
    split
    · exact Or.inl rfl
    · exact Or.inr ⟨strLower x, rfl⟩
  apply nodup_foldl_of_step
  · intro acc x
    dsimp only
    split
    · exact Or.inr ⟨x, rfl⟩
    · exact Or.inl rfl
  apply nodup_foldl_of_step
  · intro acc x
    dsimp only
    split
    · exact Or.inr ⟨x, rfl⟩
    · exact Or.inl rfl
  apply nodup_foldl_of_step
  · intro acc x
    dsimp only
    split
    · exact Or.inr ⟨x, rfl⟩
    · exact Or.inl rfl
  exact List.nodup_nil

/-! ### Shape lemmas for merge_and_rank and process -/

lemma merge_ok_shape (tf tr : List (String × ℚ)) (cmp : List String)
    (bst : List (String × ℚ)) (pts : List (List String)) (mt : ℕ)
    (out : List (String × ℚ)) (h : merge_and_rank tf tr cmp bst pts mt = Except.ok out) :
    ∃ scored filtered : List (String × ℚ),
      scored.map Prod.fst =
        allTermsOf tr cmp (extract_ngrams_from_paragraphs pts 2)
          (extract_ngrams_from_paragraphs pts 3) ∧
      postFilter scored = Except.ok filtered ∧
      out = (sortDesc filtered).take mt := by
  unfold merge_and_rank at h
  dsimp only at h
  rcases (except_bind_ok_iff _ _ _).mp h with ⟨scored, hs, h2⟩
  rcases (except_bind_ok_iff _ _ _).mp h2 with ⟨filtered, hf, h3⟩
  have hout : out = (sortDesc filtered).take mt := by simpa using h3.symm
  exact ⟨scored, filtered, scoreAll_ok_keys _ _ _ _ _ _ _ hs, hf, hout⟩

lemma process_ok_shape (text : String) (d : ExtractionData)
    (h : process text = Except.ok d) :
    d.candidate_terms = [] ∨
    ∃ (tf tr : List (String × ℚ)) (cmp : List String) (bst : List (String × ℚ))
      (pts : List (List String)) (ranked : List (String × ℚ)),
      merge_and_rank tf tr cmp bst pts 25 = Except.ok ranked ∧
      d.candidate_terms = ranked.map (fun p => (p.1, round4 p.2)) := by
  unfold process at h
  dsimp only at h
  split at h
  · left
    have : d = ⟨[], Stats.short (tokenize text).length⟩ := by simpa using h.symm
    rw [this]
  · right
    rcases (except_bind_ok_iff _ _ _).mp h with ⟨ranked, hr, h2⟩
    refine ⟨_, _, _, _, _, ranked, hr, ?_⟩
    injection h2 with h3
    rw [← h3]

/-- The per-element facts guaranteed by the post-filter, transported to the
    final ranked list of merge_and_rank. -/
lemma merge_ok_elem_props (tf tr : List (String × ℚ)) (cmp : List String)
    (bst : List (String × ℚ)) (pts : List (List String)) (mt : ℕ)
    (out : List (String × ℚ)) (h : merge_and_rank tf tr cmp bst pts mt = Except.ok out) :
    ∀ p ∈ out, splitWords p.1 ≠ [] ∧
      (splitWords p.1).headD "" ∉ STOPWORDS ∧
      (splitWords p.1).getLastD "" ∉ STOPWORDS ∧
      (1 < (splitWords p.1).length → (splitWords p.1).Nodup) := by
  rcases merge_ok_shape tf tr cmp bst pts mt out h with ⟨scored, filtered, _, hpf, hout⟩
  intro p hp
  rw [hout] at hp
  have hp2 : p ∈ sortDesc filtered := List.mem_of_mem_take hp
  have hp3 : p ∈ filtered := (sortDesc_perm filtered).mem_iff.mp hp2
  exact postFilter_ok_props scored filtered hpf p hp3

/-- C6: no term of the final ranked output (of the fusion step, and hence of
    the whole pipeline) begins or ends with a stopword, whatever generator
    produced the candidate. -/
theorem claim6_boundary_stopword_rejection :
    (∀ (tf tr : List (String × ℚ)) (cmp : List String) (bst : List (String × ℚ))
      (pts : List (List String)) (mt : ℕ) (out : List (String × ℚ)),
      merge_and_rank tf tr cmp bst pts mt = Except.ok out →
      ∀ p ∈ out, splitWords p.1 ≠ [] ∧
        (splitWords p.1).headD "" ∉ STOPWORDS ∧
        (splitWords p.1).getLastD "" ∉ STOPWORDS) ∧
    (∀ (text : String) (d : ExtractionData), process text = Except.ok d →
      ∀ p ∈ d.candidate_terms, splitWords p.1 ≠ [] ∧
        (splitWords p.1).headD "" ∉ STOPWORDS ∧
        (splitWords p.1).getLastD "" ∉ STOPWORDS) := by
  constructor
  · intro tf tr cmp bst pts mt out h p hp
    rcases merge_ok_elem_props tf tr cmp bst pts mt out h p hp with ⟨h1, h2, h3, _⟩
    exact ⟨h1, h2, h3⟩
  · intro text d h p hp
    rcases process_ok_shape text d h with hnil | ⟨tf, tr, cmp, bst, pts, ranked, hm, hterms⟩
    · rw [hnil] at hp; cases hp
    · rw [hterms] at hp
      rcases List.mem_map.mp hp with ⟨q, hq, hpq⟩
      rcases merge_ok_elem_props tf tr cmp bst pts 25 ranked hm q hq with ⟨h1, h2, h3, _⟩
      have : p.1 = q.1 := by rw [← hpq]
      rw [this]
      exact ⟨h1, h2, h3⟩

/-- C6 witness: a concrete fusion run and a concrete short-input pipeline
    run. -/
theorem claim6_witness :
    (merge_and_rank [("graph", 1)] [("graph", 1/2)] [] [] [["graph", "theory"]] 25 =
      Except.ok [("graph", 4/5), ("graph theory", 39/50)] ∧
      (splitWords "graph theory" ≠ [] ∧
        (splitWords "graph theory").headD "" ∉ STOPWORDS ∧
        (splitWords "graph theory").getLastD "" ∉ STOPWORDS)) ∧
    (process "noise words" = Except.ok ⟨[], Stats.short 2⟩ ∧
      ∀ p ∈ (⟨[], Stats.short 2⟩ : ExtractionData).candidate_terms,
        splitWords p.1 ≠ [] ∧
        (splitWords p.1).headD "" ∉ STOPWORDS ∧
        (splitWords p.1).getLastD "" ∉ STOPWORDS) :=
  ⟨⟨by decide,
    claim6_boundary_stopword_rejection.1 [("graph", 1)] [("graph", 1/2)] [] []
      [["graph", "theory"]] 25 [("graph", 4/5), ("graph theory", 39/50)] (by decide)
      ("graph theory", 39/50) (by decide)⟩,
   ⟨by decide,
    claim6_boundary_stopword_rejection.2 "noise words" ⟨[], Stats.short 2⟩ (by decide)⟩⟩

/-- C7: no multi-word term with repeated constituent words survives to the
    final output (of the fusion step, and of the whole pipeline). -/
theorem claim7_self_duplication_suppression :
    (∀ (tf tr : List (String × ℚ)) (cmp : List String) (bst : List (String × ℚ))
      (pts : List (List String)) (mt : ℕ) (out : List (String × ℚ)),
      merge_and_rank tf tr cmp bst pts mt = Except.ok out →
      ∀ p ∈ out, 1 < (splitWords p.1).length → (splitWords p.1).Nodup) ∧
    (∀ (text : String) (d : ExtractionData), process text = Except.ok d →
      ∀ p ∈ d.candidate_terms, 1 < (splitWords p.1).length → (splitWords p.1).Nodup) := by
  constructor
  · intro tf tr cmp bst pts mt out h p hp
    exact (merge_ok_elem_props tf tr cmp bst pts mt out h p hp).2.2.2
  · intro text d h p hp
    rcases process_ok_shape text d h with hnil | ⟨tf, tr, cmp, bst, pts, ranked, hm, hterms⟩
    · rw [hnil] at hp; cases hp
    · rw [hterms] at hp
      rcases List.mem_map.mp hp with ⟨q, hq, hpq⟩
      have : p.1 = q.1 := by rw [← hpq]
      rw [this]
      exact (merge_ok_elem_props tf tr cmp bst pts 25 ranked hm q hq).2.2.2

/-- C7 witness: a concrete fusion run containing a two-word candidate, and a
    concrete short-input pipeline run. -/
theorem claim7_witness :
    (merge_and_rank [] [("alpha", 1/3)] [] [] [["alpha", "bravo"]] 25 =
      Except.ok [("alpha bravo", 13/25), ("alpha", 2/15)] ∧
      (1 < (splitWords "alpha bravo").length → (splitWords "alpha bravo").Nodup)) ∧
    (process "few tokens" = Except.ok ⟨[], Stats.short 2⟩ ∧
      ∀ p ∈ (⟨[], Stats.short 2⟩ : ExtractionData).candidate_terms,
        1 < (splitWords p.1).length → (splitWords p.1).Nodup) :=
  ⟨⟨by decide,
    claim7_self_duplication_suppression.1 [] [("alpha", 1/3)] [] []
      [["alpha", "bravo"]] 25 [("alpha bravo", 13/25), ("alpha", 2/15)] (by decide)
      ("alpha bravo", 13/25) (by decide)⟩,
   ⟨by decide,
    claim7_self_duplication_suppression.2 "few tokens" ⟨[], Stats.short 2⟩ (by decide)⟩⟩

/-- C10: the final candidate list never contains the same term twice (fusion
    step and whole pipeline). -/
theorem claim10_no_duplicate_terms :
    (∀ (tf tr : List (String × ℚ)) (cmp : List String) (bst : List (String × ℚ))
      (pts : List (List String)) (mt : ℕ) (out : List (String × ℚ)),
      merge_and_rank tf tr cmp bst pts mt = Except.ok out →
      (out.map Prod.fst).Nodup) ∧
    (∀ (text : String) (d : ExtractionData), process text = Except.ok d →
      (d.candidate_terms.map Prod.fst).Nodup) := by
  have hmain : ∀ (tf tr : List (String × ℚ)) (cmp : List String)
      (bst : List (String × ℚ)) (pts : List (List String)) (mt : ℕ)
      (out : List (String × ℚ)),
      merge_and_rank tf tr cmp bst pts mt = Except.ok out →
      (out.map Prod.fst).Nodup := by
    intro tf tr cmp bst pts mt out h
    rcases merge_ok_shape tf tr cmp bst pts mt out h with ⟨scored, filtered, hkeys, hpf, hout⟩
    have h1 : (scored.map Prod.fst).Nodup := by
      rw [hkeys]
      exact allTermsOf_nodup _ _ _ _
    have h2 : (filtered.map Prod.fst).Nodup :=
      h1.sublist ((postFilter_ok_sublist scored filtered hpf).map Prod.fst)
    have h3 : ((sortDesc filtered).map Prod.fst).Nodup :=
      (((sortDesc_perm filtered).map Prod.fst).nodup_iff).mpr h2
    rw [hout, List.map_take]
    exact h3.sublist (List.take_sublist mt _)
  constructor
  · exact hmain
  · intro text d h
    rcases process_ok_shape text d h with hnil | ⟨tf, tr, cmp, bst, pts, ranked, hm, hterms⟩
    · rw [hnil]; exact List.nodup_nil
    · rw [hterms]
      have : (ranked.map (fun p => (p.1, round4 p.2))).map Prod.fst =
          ranked.map Prod.fst := by
        rw [List.map_map]
        rfl
      rw [this]
      exact hmain tf tr cmp bst pts 25 ranked hm

/-- C10 witness: a concrete fusion run and a concrete short-input pipeline
    run. -/
theorem claim10_witness :
    (merge_and_rank [] [("gamma", 1/4)] [] [] [] 25 = Except.ok [("gamma", 1/10)] ∧
      (([("gamma", 1/10)] : List (String × ℚ)).map Prod.fst).Nodup) ∧
    (process "two words" = Except.ok ⟨[], Stats.short 2⟩ ∧
      ((⟨[], Stats.short 2⟩ : ExtractionData).candidate_terms.map Prod.fst).Nodup) :=
  ⟨⟨by decide,
    claim10_no_duplicate_terms.1 [] [("gamma", 1/4)] [] [] [] 25
      [("gamma", 1/10)] (by decide)⟩,
   ⟨by decide,
    claim10_no_duplicate_terms.2 "two words" ⟨[], Stats.short 2⟩ (by decide)⟩⟩

/-! ### Claim C5: positional boost monotonicity -/

lemma boost_lookup (text : String) (terms : List String) (term : String)
    (h : term ∈ terms) :
    lookupD (compute_positional_boost text terms) term 1 =
      1 + (if (splitWords term).any (fun w => decide (w ∈ (posSets text).1)) then (3/10 : ℚ) else 0)
        + (if (splitWords term).any (fun w => decide (w ∈ (posSets text).2)) then (1/10 : ℚ) else 0) := by
  unfold compute_positional_boost
  exact lookupD_map_fn terms _ term 1 h

/-- C5 (amended): for two occurrences of the same candidate term with equal
    component scores, one whose constituent words meet the header-term set of
    its document and one whose words meet neither positional set of its
    document, the header occurrence's fused score is strictly greater,
    provided the shared combined component score is positive (the boost is at
    least 13/10 against exactly 1, and it multiplies the combined component
    score; with a zero combined component score both fused scores are 0). -/
theorem claim5_amended_boost_monotonicity
    (textH textB : String) (termsH termsB : List String)
    (tf tr : List (String × ℚ)) (bigrams trigrams : List String) (term : String)
    (hmemH : term ∈ termsH) (hmemB : term ∈ termsB)
    (hH : (splitWords term).any (fun w => decide (w ∈ (posSets textH).1)) = true)
    (hB1 : (splitWords term).any (fun w => decide (w ∈ (posSets textB).1)) = false)
    (hB2 : (splitWords term).any (fun w => decide (w ∈ (posSets textB).2)) = false)
    (hne : splitWords term ≠ [])
    (hbase : 0 < baseComponents tf tr bigrams trigrams term) :
    ∃ sH sB,
      scoreTerm tf tr (compute_positional_boost textH termsH) bigrams trigrams term =
        Except.ok sH ∧
      scoreTerm tf tr (compute_positional_boost textB termsB) bigrams trigrams term =
        Except.ok sB ∧
      (13/10 : ℚ) ≤ lookupD (compute_positional_boost textH termsH) term 1 ∧
      lookupD (compute_positional_boost textB termsB) term 1 = 1 ∧
      sB < sH := by
  have hBoostB : lookupD (compute_positional_boost textB termsB) term 1 = 1 := by
    rw [boost_lookup textB termsB term hmemB, if_neg (by simp [hB1]),
      if_neg (by simp [hB2])]
    norm_num
  have hBoostH : (13/10 : ℚ) ≤ lookupD (compute_positional_boost textH termsH) term 1 := by
    rw [boost_lookup textH termsH term hmemH, if_pos hH]
    by_cases hf : (splitWords term).any (fun w => decide (w ∈ (posSets textH).2)) = true
    · rw [if_pos hf]; norm_num
    · rw [if_neg hf]; norm_num
  have hlen : 1 ≤ (splitWords term).length := by
    cases hws : splitWords term with
    | nil => exact absurd hws hne
    | cons w ws => simp
  have hlenB : (1 : ℚ) ≤ 1 + (2/10) * (((splitWords term).length : ℚ) - 1) := by
    have h1 : (1 : ℚ) ≤ ((splitWords term).length : ℚ) := by exact_mod_cast hlen
    nlinarith
  have hXpos : 0 < baseComponents tf tr bigrams trigrams term *
      (1 + (2/10) * (((splitWords term).length : ℚ) - 1)) :=
    mul_pos hbase (lt_of_lt_of_le one_pos hlenB)
  have hnotEmpty : (splitWords term).isEmpty = false := by
    cases hws : splitWords term with
    | nil => exact absurd hws hne
    | cons w ws => rfl
  refine ⟨baseComponents tf tr bigrams trigrams term *
      (1 + (2/10) * (((splitWords term).length : ℚ) - 1)) *
      lookupD (compute_positional_boost textH termsH) term 1,
    baseComponents tf tr bigrams trigrams term *
      (1 + (2/10) * (((splitWords term).length : ℚ) - 1)) *
      lookupD (compute_positional_boost textB termsB) term 1,
    ?_, ?_, hBoostH, hBoostB, ?_⟩
  · unfold scoreTerm
    dsimp only
    rw [if_neg (by rw [hnotEmpty]; exact Bool.false_ne_true)]
  · unfold scoreTerm
    dsimp only
    rw [if_neg (by rw [hnotEmpty]; exact Bool.false_ne_true)]
  · rw [hBoostB, mul_one]
    calc baseComponents tf tr bigrams trigrams term *
          (1 + 2/10 * (((splitWords term).length : ℚ) - 1))
        = baseComponents tf tr bigrams trigrams term *
          (1 + 2/10 * (((splitWords term).length : ℚ) - 1)) * 1 := by ring
      _ < baseComponents tf tr bigrams trigrams term *
          (1 + 2/10 * (((splitWords term).length : ℚ) - 1)) *
          lookupD (compute_positional_boost textH termsH) term 1 := by
          apply mul_lt_mul_of_pos_left _ hXpos
          linarith

/-- C5 witness for the amended claim at concrete documents. -/
theorem claim5_witness :
    (("graph" : String) ∈ ["graph"] ∧
      (splitWords "graph").any (fun w => decide (w ∈ (posSets "# graph theory").1)) = true ∧
      (splitWords "graph").any (fun w => decide (w ∈ (posSets "body text here").1)) = false ∧
      (splitWords "graph").any (fun w => decide (w ∈ (posSets "body text here").2)) = false ∧
      splitWords "graph" ≠ [] ∧
      0 < baseComponents [("graph", 1)] [] [] [] "graph") ∧
    ∃ sH sB,
      scoreTerm [("graph", 1)] [] (compute_positional_boost "# graph theory" ["graph"])
        [] [] "graph" = Except.ok sH ∧
      scoreTerm [("graph", 1)] [] (compute_positional_boost "body text here" ["graph"])
        [] [] "graph" = Except.ok sB ∧
      (13/10 : ℚ) ≤ lookupD (compute_positional_boost "# graph theory" ["graph"]) "graph" 1 ∧
      lookupD (compute_positional_boost "body text here" ["graph"]) "graph" 1 = 1 ∧
      sB < sH :=
  ⟨⟨by decide, by decide, by decide, by decide, by decide, by decide⟩,
   claim5_amended_boost_monotonicity "# graph theory" "body text here" ["graph"] ["graph"]
     [("graph", 1)] [] [] [] "graph" (by decide) (by decide) (by decide) (by decide)
     (by decide) (by decide) (by decide)⟩

/-- C5 counterexample to the claim as stated: the term of a quoted compound
    whose words are a stopword and a generic term has all component scores 0;
    with a header raising its boost to 13/10 and without one (boost 1) the
    fused scores are both 0, so the header score is not strictly greater. -/
theorem claim5_counterexample :
    lookupD (compute_positional_boost "# within system\n\nfiller" ["within system"])
      "within system" 1 = 13/10 ∧
    lookupD (compute_positional_boost "filler" ["within system"])
      "within system" 1 = 1 ∧
    scoreTerm [] [] (compute_positional_boost "# within system\n\nfiller" ["within system"])
      [] [] "within system" = Except.ok 0 ∧
    scoreTerm [] [] (compute_positional_boost "filler" ["within system"])
      [] [] "within system" = Except.ok 0 ∧
    ¬ ((0 : ℚ) < 0) :=
  ⟨by decide, by decide, by decide, by decide, by decide⟩

/-! ### Claim C9: positivity of the rank-propagation scores -/

lemma bump_nonneg (W : String → String → ℚ) (a b : String)
    (h : ∀ x y, 0 ≤ W x y) : ∀ x y, 0 ≤ bump W a b x y := by
  intro x y
  unfold bump
  have h1 : (0 : ℚ) ≤ if x = a ∧ y = b then 1 else 0 := by split <;> norm_num
  have h2 : (0 : ℚ) ≤ if x = b ∧ y = a then 1 else 0 := by split <;> norm_num
  have := h x y
  linarith

lemma foldl_bump_nonneg (ps : List (String × String)) (W0 : String → String → ℚ)
    (h : ∀ x y, 0 ≤ W0 x y) :
    ∀ x y, 0 ≤ (ps.foldl (fun W p => if p.1 ≠ p.2 then bump W p.1 p.2 else W) W0) x y := by
  induction ps generalizing W0 with
  | nil => exact h
  | cons p t ih =>
    rw [List.foldl_cons]
    apply ih
    split
    · exact bump_nonneg W0 p.1 p.2 h
    · exact h

lemma buildCooccur_nonneg (l : List String) (w : ℕ) :
    ∀ x y, 0 ≤ buildCooccur l w x y :=
  foldl_bump_nonneg _ _ (fun _ _ => le_refl 0)

lemma outDegOf_nonneg (W : String → String → ℚ) (vocab : List String)
    (hW : ∀ x y, 0 ≤ W x y) (s : String) : 0 ≤ outDegOf W vocab s := by
  unfold outDegOf
  apply List.sum_nonneg
  intro x hx
  rcases List.mem_map.mp hx with ⟨t, _, hv⟩
  rw [← hv]
  exact hW s t

lemma prStep_pos (n d : ℚ) (vocab : List String) (W : String → String → ℚ)
    (od : String → ℚ) (sc : String → ℚ) (hn : 1 ≤ n) (hd0 : 0 ≤ d) (hd1 : d < 1)
    (hW : ∀ x y, 0 ≤ W x y) (hsc : ∀ s, 0 ≤ sc s) (t : String) :
    0 < prStep n d vocab W od sc t := by
  unfold prStep
  have hsum : 0 ≤ (vocab.map (fun s =>
      if 0 < od s then d * sc s * W s t / od s else 0)).sum := by
    apply List.sum_nonneg
    intro x hx
    rcases List.mem_map.mp hx with ⟨s, _, hv⟩
    rw [← hv]
    split
    · rename_i hodp
      exact div_nonneg (mul_nonneg (mul_nonneg hd0 (hsc s)) (hW s t)) (le_of_lt hodp)
    · exact le_refl 0
  have hhead : 0 < (1 - d) / n := div_pos (by linarith) (lt_of_lt_of_le one_pos hn)
  linarith

lemma iterate_prStep_nonneg (n d : ℚ) (vocab : List String)
    (W : String → String → ℚ) (od : String → ℚ) (hn : 1 ≤ n) (hd0 : 0 ≤ d)
    (hd1 : d < 1) (hW : ∀ x y, 0 ≤ W x y) :
    ∀ k t, 0 ≤ (prStep n d vocab W od)^[k] (fun _ => 1 / n) t := by
  intro k
  induction k with
  | zero =>
    intro t
    simp only [Function.iterate_zero, id]
    positivity
  | succ m ih =>
    intro t
    rw [Function.iterate_succ_apply']
    exact le_of_lt (prStep_pos n d vocab W od _ hn hd0 hd1 hW ih t)

/-- C9: with at least 3 filtered tokens and damping in [0, 1), every score
    returned by textrank is strictly positive; consequently filtering the
    result to non-zero scores changes nothing, so including all keys without
    a non-zero check is equivalent to the spec's "non-zero rank-propagation
    score" candidate condition. -/
theorem claim9_textrank_scores_positive (tokens : List String) (w iters : ℕ)
    (d : ℚ) (hd0 : 0 ≤ d) (hd1 : d < 1)
    (hlen : 3 ≤ (filteredOf tokens).length) :
    (∀ p ∈ textrank tokens w d iters, 0 < p.2) ∧
    (textrank tokens w d iters).filter (fun p => decide (p.2 ≠ 0)) =
      textrank tokens w d iters := by
  have hvocab : dedupFirst (filteredOf tokens) ≠ [] := by
    intro hnil
    cases hf : filteredOf tokens with
    | nil => rw [hf] at hlen; simp at hlen
    | cons x xs =>
      have hx : x ∈ dedupFirst (filteredOf tokens) := by
        rw [mem_dedupFirst, hf]
        exact List.mem_cons_self x xs
      rw [hnil] at hx
      cases hx
  have hn : (1 : ℚ) ≤ ((dedupFirst (filteredOf tokens)).length : ℚ) := by
    have : 1 ≤ (dedupFirst (filteredOf tokens)).length := by
      cases hd : dedupFirst (filteredOf tokens) with
      | nil => exact absurd hd hvocab
      | cons y ys => simp
    exact_mod_cast this
  have hpos : ∀ p ∈ textrank tokens w d iters, 0 < p.2 := by
    intro p hp
    unfold textrank at hp
    rw [if_neg (by omega)] at hp
    dsimp only at hp
    rcases List.mem_map.mp hp with ⟨v, _, hpv⟩
    have hval : p.2 = (prStep ((dedupFirst (filteredOf tokens)).length : ℚ) d
        (dedupFirst (filteredOf tokens)) (buildCooccur (filteredOf tokens) w)
        (outDegOf (buildCooccur (filteredOf tokens) w) (dedupFirst (filteredOf tokens))))^[iters]
        (fun _ => 1 / ((dedupFirst (filteredOf tokens)).length : ℚ)) v := by
      rw [← hpv]
    rw [hval]
    cases iters with
    | zero =>
      simp only [Function.iterate_zero, id]
      positivity
    | succ m =>
      rw [Function.iterate_succ_apply']
      exact prStep_pos _ d _ _ _ _ hn hd0 hd1 (buildCooccur_nonneg _ w)
        (iterate_prStep_nonneg _ d _ _ _ hn hd0 hd1 (buildCooccur_nonneg _ w) m) v
  refine ⟨hpos, ?_⟩
  apply List.filter_eq_self.mpr
  intro p hp
  simpa using ne_of_gt (hpos p hp)

/-- C9 witness at a concrete three-token list with the default parameters. -/
theorem claim9_witness :
    ((0 : ℚ) ≤ 17/20 ∧ (17/20 : ℚ) < 1 ∧
      3 ≤ (filteredOf ["graphs", "nodes", "edges"]).length) ∧
    (∀ p ∈ textrank ["graphs", "nodes", "edges"] 5 (17/20) 30, 0 < p.2) ∧
    (textrank ["graphs", "nodes", "edges"] 5 (17/20) 30).filter
        (fun p => decide (p.2 ≠ 0)) =
      textrank ["graphs", "nodes", "edges"] 5 (17/20) 30 :=
  ⟨⟨by decide, by decide, by decide⟩,
   claim9_textrank_scores_positive ["graphs", "nodes", "edges"] 5 30 (17/20)
     (by decide) (by decide) (by decide)⟩

/-! ### Claim C1: a zero-word quoted span crashes the scoring loop -/

lemma foldl_ins_preserves_mem (F : List String → String → List String)
    (hF : ∀ acc x, F acc x = acc ∨ ∃ y, F acc x = insertIfAbsent acc y)
    (l acc : List String) (z : String) (h : z ∈ acc) : z ∈ l.foldl F acc := by
  induction l generalizing acc with
  | nil => exact h
  | cons a t ih =>
    rw [List.foldl_cons]
    rcases hF acc a with hs | ⟨y, hs⟩
    · rw [hs]; exact ih acc h
    · rw [hs]; exact ih _ ((mem_insertIfAbsent _ _ _).mpr (Or.inl h))

lemma compound_fold_step_shape :
    ∀ (acc : List String) (x : String),
      (fun (acc : List String) (ct : String) =>
        let cl := strLower ct
        if '\n' ∈ cl.toList then acc else insertIfAbsent acc cl) acc x = acc ∨
      ∃ y, (fun (acc : List String) (ct : String) =>
        let cl := strLower ct
        if '\n' ∈ cl.toList then acc else insertIfAbsent acc cl) acc x =
          insertIfAbsent acc y := by
  intro acc x
  dsimp only
  split
  · exact Or.inl rfl
  · exact Or.inr ⟨strLower x, rfl⟩

lemma mem_foldl_compound (cmp : List String) (acc : List String) (ct : String)
    (hct : ct ∈ cmp) (hnl : ¬ '\n' ∈ (strLower ct).toList) :
    strLower ct ∈ cmp.foldl (fun (acc : List String) (ct : String) =>
      let cl := strLower ct
      if '\n' ∈ cl.toList then acc else insertIfAbsent acc cl) acc := by
  induction cmp generalizing acc with
  | nil => cases hct
  | cons a rest ih =>
    rw [List.foldl_cons]
    cases hct with
    | head =>
      apply foldl_ins_preserves_mem _ compound_fold_step_shape
      dsimp only
      rw [if_neg hnl]
      exact (mem_insertIfAbsent _ _ _).mpr (Or.inr rfl)
    | tail _ hmem => exact ih _ hmem

lemma mem_allTermsOf_of_compound (tr : List (String × ℚ))
    (cmp bigrams trigrams : List String) (ct : String) (hct : ct ∈ cmp)
    (hnl : ¬ '\n' ∈ (strLower ct).toList) :
    strLower ct ∈ allTermsOf tr cmp bigrams trigrams := by
  unfold allTermsOf
  exact mem_foldl_compound cmp _ ct hct hnl

lemma scoreTerm_empty_error (tf tr bst : List (String × ℚ))
    (bigrams trigrams : List String) (term : String)
    (h : (splitWords term).isEmpty = true) :
    scoreTerm tf tr bst bigrams trigrams term =
      Except.error "ZeroDivisionError: len(words) = 0 in tf_component" := by
  unfold scoreTerm
  rw [if_pos h]

lemma merge_error_of_empty_compound (tf tr : List (String × ℚ)) (cmp : List String)
    (bst : List (String × ℚ)) (pts : List (List String)) (mt : ℕ) (ct : String)
    (hct : ct ∈ cmp) (hnl : ¬ '\n' ∈ (strLower ct).toList)
    (hempty : (splitWords (strLower ct)).isEmpty = true) :
    ∃ e, merge_and_rank tf tr cmp bst pts mt = Except.error e := by
  have hmem : strLower ct ∈ allTermsOf tr cmp
      (extract_ngrams_from_paragraphs pts 2) (extract_ngrams_from_paragraphs pts 3) :=
    mem_allTermsOf_of_compound tr cmp _ _ ct hct hnl
  rcases scoreAll_error_of_mem tf tr bst _ _ _ (strLower ct) hmem _
    (scoreTerm_empty_error tf tr bst _ _ (strLower ct) hempty) with ⟨e, hsA⟩
  refine ⟨e, ?_⟩
  unfold merge_and_rank
  dsimp only
  rw [hsA, except_bind_error]

/-- C1 is refuted by the code: an input with at least 10 tokens containing a
    quoted whitespace-only span reaches the scoring loop with a candidate term
    that splits into zero words, and `sum(...) / len(words)` raises
    ZeroDivisionError, so `process` fails instead of producing a success
    result. -/
theorem claim1_zero_word_compound_crashes :
    ∃ e, process
        "alpha bravo candle delta eagle forest grape hotel indigo julie \"   \"" =
      Except.error e := by
  rcases merge_error_of_empty_compound
    (compute_tf ((tokenize
        "alpha bravo candle delta eagle forest grape hotel indigo julie \"   \"").filter
      (fun t => decide (t ∉ STOPWORDS ∧ t ∉ GENERIC_TERMS))))
    (textrank (tokenize
        "alpha bravo candle delta eagle forest grape hotel indigo julie \"   \"")
      5 (85/100) 30)
    (extract_compound_terms
      "alpha bravo candle delta eagle forest grape hotel indigo julie \"   \"")
    (compute_positional_boost
      "alpha bravo candle delta eagle forest grape hotel indigo julie \"   \""
      (dedupFirst
        (((compute_tf ((tokenize
              "alpha bravo candle delta eagle forest grape hotel indigo julie \"   \"").filter
            (fun t => decide (t ∉ STOPWORDS ∧ t ∉ GENERIC_TERMS)))).map Prod.fst) ++
          ((textrank (tokenize
              "alpha bravo candle delta eagle forest grape hotel indigo julie \"   \"")
            5 (85/100) 30).map Prod.fst) ++
          (extract_compound_terms
            "alpha bravo candle delta eagle forest grape hotel indigo julie \"   \"").map
            strLower)))
    (tokenize_by_paragraph
      "alpha bravo candle delta eagle forest grape hotel indigo julie \"   \"")
    25 "   " (by decide) (by decide) (by decide) with ⟨e, hm⟩
  refine ⟨e, ?_⟩
  unfold process
  dsimp only
  rw [if_neg (by decide), hm, except_bind_error]

/-! ### Claim C2: the source textrank equals the spec reference computation -/

lemma bump_indicator (W0 : String → String → ℚ) (a b x y : String) :
    (if (a, b).1 ≠ (a, b).2 then bump W0 a b else W0) x y =
      W0 x y +
        (if ((a, b).1 ≠ (a, b).2 ∧ ((a, b) = (x, y) ∨ (a, b) = (y, x))) then (1 : ℚ)
         else 0) := by
  by_cases hab : a = b
  · have hcond : ¬ ((a, b).1 ≠ (a, b).2) := by simpa using hab
    rw [if_neg hcond, if_neg (by rintro ⟨hc, _⟩; exact hcond hc)]
    ring
  · have hcond : (a, b).1 ≠ (a, b).2 := by simpa using hab
    rw [if_pos hcond]
    unfold bump
    by_cases h1 : x = a ∧ y = b
    · have hor : (a, b) = (x, y) := by rw [h1.1, h1.2]
      have h2 : ¬ (x = b ∧ y = a) := by
        rintro ⟨hxb, _⟩
        exact hab (h1.1.symm.trans hxb)
      rw [if_pos h1, if_neg h2, if_pos ⟨hcond, Or.inl hor⟩]
      ring
    · by_cases h2 : x = b ∧ y = a
      · have hor : (a, b) = (y, x) := by rw [h2.1, h2.2]
        rw [if_neg h1, if_pos h2, if_pos ⟨hcond, Or.inr hor⟩]
        ring
      · have hor : ¬ ((a, b) = (x, y) ∨ (a, b) = (y, x)) := by
          rintro (heq | heq)
          · injection heq with u v
            exact h1 ⟨u.symm, v.symm⟩
          · injection heq with u v
            exact h2 ⟨v.symm, u.symm⟩
        rw [if_neg h1, if_neg h2, if_neg (by rintro ⟨_, ho⟩; exact hor ho)]
        ring

lemma foldl_bump_count (ps : List (String × String)) (W0 : String → String → ℚ)
    (x y : String) :
    (ps.foldl (fun W p => if p.1 ≠ p.2 then bump W p.1 p.2 else W) W0) x y =
      W0 x y +
        ((ps.countP (fun p => decide (p.1 ≠ p.2 ∧ (p = (x, y) ∨ p = (y, x))))) : ℚ) := by
  induction ps generalizing W0 with
  | nil => simp
  | cons p t ih =>
    obtain ⟨a, b⟩ := p
    rw [List.foldl_cons, ih, List.countP_cons, bump_indicator]
    by_cases hP : ((a, b).1 ≠ (a, b).2 ∧ ((a, b) = (x, y) ∨ (a, b) = (y, x)))
    · have hbool : (fun p => decide (p.1 ≠ p.2 ∧ (p = (x, y) ∨ p = (y, x)))) (a, b) =
          true := decide_eq_true hP
      rw [if_pos hP, if_pos hbool]
      push_cast
      ring
    · have hbool : ¬ ((fun p => decide (p.1 ≠ p.2 ∧ (p = (x, y) ∨ p = (y, x)))) (a, b) =
          true) := fun hcon => hP (of_decide_eq_true hcon)
      rw [if_neg hP, if_neg hbool]
      push_cast
      ring

lemma buildCooccur_eq_specWeight (l : List String) (w : ℕ) :
    buildCooccur l w = specWeight l w := by
  funext x y
  unfold buildCooccur specWeight
  rw [foldl_bump_count]
  by_cases hxy : x = y
  · subst hxy
    rw [if_pos rfl]
    have hz : (windowPairs l w).countP
        (fun p => decide (p.1 ≠ p.2 ∧ (p = (x, x) ∨ p = (x, x)))) = 0 := by
      rw [List.countP_eq_zero]
      intro p _
      simp only [decide_eq_true_eq, not_and]
      rintro hne (rfl | rfl) <;> exact hne rfl
    rw [hz]
    norm_num
  · rw [if_neg hxy]
    have hc : (windowPairs l w).countP
        (fun p => decide (p.1 ≠ p.2 ∧ (p = (x, y) ∨ p = (y, x)))) =
        (windowPairs l w).countP (fun p => decide (p = (x, y) ∨ p = (y, x))) := by
      apply List.countP_congr
      intro p _
      obtain ⟨a, b⟩ := p
      constructor
      · intro hdec
        exact decide_eq_true (of_decide_eq_true hdec).2
      · intro hdec
        have hor := of_decide_eq_true hdec
        apply decide_eq_true
        refine ⟨?_, hor⟩
        rcases hor with heq | heq
        · have h1 : a = x := congrArg Prod.fst heq
          have h2 : b = y := congrArg Prod.snd heq
          show (a, b).1 ≠ (a, b).2
          dsimp only
          rw [h1, h2]
          exact hxy
        · have h1 : a = y := congrArg Prod.fst heq
          have h2 : b = x := congrArg Prod.snd heq
          show (a, b).1 ≠ (a, b).2
          dsimp only
          rw [h1, h2]
          exact fun hcon => hxy hcon.symm
    rw [hc]
    norm_num

lemma outDeg_eq_spec (l : List String) (w : ℕ) (vocab : List String) :
    outDegOf (buildCooccur l w) vocab = specOutDeg l w vocab := by
  funext s
  unfold outDegOf specOutDeg
  rw [buildCooccur_eq_specWeight]

lemma prStep_eq_specStep (l : List String) (w : ℕ) (n d : ℚ) (vocab : List String) :
    prStep n d vocab (buildCooccur l w) (outDegOf (buildCooccur l w) vocab) =
      specStep l w n d vocab := by
  funext sc t
  unfold prStep specStep
  rw [outDeg_eq_spec, buildCooccur_eq_specWeight]
  congr 1
  rw [← List.sum_map_mul_left]
  apply congrArg List.sum
  apply List.map_congr_left
  intro s _
  by_cases hod : 0 < specOutDeg l w vocab s
  · rw [if_pos hod, if_pos hod]
    ring
  · rw [if_neg hod, if_neg hod]
    ring

/-- The source textrank coincides with the spec-reference computation for all
    parameters. -/
lemma textrank_eq_spec (tokens : List String) (w : ℕ) (d : ℚ) (iters : ℕ) :
    textrank tokens w d iters = textrankSpec tokens w d iters := by
  unfold textrank textrankSpec
  by_cases h : (filteredOf tokens).length < 3
  · rw [if_pos h, if_pos h]
  · rw [if_neg h, if_neg h]
    dsimp only
    rw [prStep_eq_specStep]

/-- C2: at the default parameters (window 5, damping 0.85, 30 iterations),
    textrank computes exactly the reference computation of spec section 4.3:
    empty result below 3 filtered tokens, symmetric double-entry edge
    accumulation over the sliding window without self-loops, scores
    initialized at 1/n, exactly 30 damped update rounds with zero out-degree
    guarded, keyed by the original token strings. -/
theorem claim2_textrank_matches_spec (tokens : List String) :
    textrank tokens 5 (85/100) 30 = textrankSpec tokens 5 (85/100) 30 :=
  textrank_eq_spec tokens 5 (85/100) 30
